import Mathlib

/-!
# Verification of the cppsl ring-buffer family

Shallow embedding of the ring-buffer implementations of the cppsl repository:

* `CycleBuffer`  — `cppsl::buffer::Cycle_Buffer` (include/cppsl/buffer/cyclicBufferSafe.hpp)
* `LockFree`     — `cppsl::buffer::cyclic_buffer_lock_free`
  (include/cppsl/buffer/cyclicBufferLockFree.hpp)
* `CircBufLF`    — `cppsl::container::CircularBufferLF` (include/cppsl/container/circularBuffer.hpp)
* `SoftRing`     — the growable `Soft_Ring_Buffer_Ex` (include/cppsl/buffer/ringBuffer.hpp)

Cursors (`head`/`tail`, `mLastIndex`/`mFirstIndex`) are unsigned machine integers in the
C++ sources; they are modelled as `Nat`.  In every state reachable by the operations the
consumer cursor never exceeds the producer cursor, so the unsigned wrap-around difference
`head - tail` coincides with truncated `Nat` subtraction; theorems carry the corresponding
`tail ≤ head` hypotheses where they matter.  Slot indexing uses the same bit-mask
expression `cursor & (size - 1)` as the sources.

The file is organised as definitions first, then the theorems about them.
-/

namespace CppslBuffer

/-- Slot index `cursor & (buffer_size - 1)`, exactly the masking expression used by all
ring-buffer variants in the repository. -/
def slot (N c : Nat) : Nat := c &&& (N - 1)

/-- Pointwise update of a function-modelled backing array. -/
def upd {α : Type} (f : Nat → α) (i : Nat) (x : α) : Nat → α :=
  fun j => if j = i then x else f j

namespace CycleBuffer

/-- State of `Cycle_Buffer<T, buffer_size>`: the two `index_t` cursors and the backing
array `data_buff`.  The template parameter `buffer_size` is passed to each operation. -/
structure State (α : Type) where
  head : Nat
  tail : Nat
  data_buff : Nat → α

variable {α : Type}

/-- `Cycle_Buffer()` — both cursors start at 0; the backing array is default-filled. -/
def init (d : α) : State α := ⟨0, 0, fun _ => d⟩

/-- `readAvailable()`: `head - tail`. -/
def readAvailable (s : State α) : Nat := s.head - s.tail

/-- `writeAvailable()`: `buffer_size - (head - tail)`. -/
def writeAvailable (N : Nat) (s : State α) : Nat := N - (s.head - s.tail)

/-- `isEmpty()`. -/
def isEmpty (s : State α) : Bool := readAvailable s == 0

/-- `isFull()`. -/
def isFull (N : Nat) (s : State α) : Bool := writeAvailable N s == 0

/-- `insert(T data)`: fails when `head - tail == buffer_size`, otherwise writes at
`head & buffer_mask` and advances `head` by one. -/
def insert (N : Nat) (x : α) (s : State α) : Bool × State α :=
  if s.head - s.tail = N then (false, s)
  else (true, { s with head := s.head + 1, data_buff := upd s.data_buff (slot N s.head) x })

/-- `remove()`: discards one element, no read. -/
def removeOne (s : State α) : Bool × State α :=
  if s.tail = s.head then (false, s) else (true, { s with tail := s.tail + 1 })

/-- `remove(size_t cnt)`: discards up to `cnt` elements (`cnt` clamped to `head - tail`),
advancing `tail` only. -/
def removeCnt (cnt : Nat) (s : State α) : Nat × State α :=
  let avail := s.head - s.tail
  let c := if cnt > avail then avail else cnt
  (c, { s with tail := s.tail + c })

/-- `remove(T* data)`: reads the element at `tail & buffer_mask` and advances `tail`. -/
def removeGet (N : Nat) (s : State α) : Option α × State α :=
  if s.tail = s.head then (none, s)
  else (some (s.data_buff (slot N s.tail)), { s with tail := s.tail + 1 })

/-- `peek()`. -/
def peek (N : Nat) (s : State α) : Option α :=
  if s.tail = s.head then none else some (s.data_buff (slot N s.tail))

/-- `consumerClear()`: `tail.store(head.load())`. -/
def consumerClear (s : State α) : State α := { s with tail := s.head }

/-- `operator[](size_t index)`: unchecked access at `(tail + index) & buffer_mask`. -/
def opIndex (N : Nat) (s : State α) (index : Nat) : α :=
  s.data_buff (slot N (s.tail + index))

/-- The sequence of unread elements, oldest first. -/
def toList (N : Nat) (s : State α) : List α :=
  (List.range (s.head - s.tail)).map fun i => s.data_buff (slot N (s.tail + i))

/-- Reachable-state invariant: the consumer cursor never passes the producer cursor and
at most `buffer_size` elements are outstanding. -/
def Wf (N : Nat) (s : State α) : Prop := s.tail ≤ s.head ∧ s.head - s.tail ≤ N

/-- Insert a whole list, one `insert` at a time; the flag is the conjunction of all
returned flags. -/
def insertAll (N : Nat) (vs : List α) (s : State α) : Bool × State α :=
  match vs with
  | [] => (true, s)
  | x :: xs =>
    let r := insert N x s
    let r2 := insertAll N xs r.2
    (r.1 && r2.1, r2.2)

/-- Perform `k` single-element `remove(T*)` calls, collecting the results. -/
def removeAll (N : Nat) : Nat → State α → List (Option α) × State α
  | 0, s => ([], s)
  | k + 1, s =>
    let r := removeGet N s
    let r2 := removeAll N k r.2
    (r.1 :: r2.1, r2.2)

/-- The `static_assert`s constraining `buffer_size` in `Cycle_Buffer` (with the default
`index_t = size_t`, 64 bits): nonzero, `(buffer_size & buffer_mask) == 0` (power of two),
and `buffer_mask <= max(index_t) >> 1`.  Instantiation fails to compile — the spec's
`InvalidCapacity` — exactly when this predicate is false. -/
def staticAssertsHold (buffer_size : Nat) : Bool :=
  buffer_size != 0 && (buffer_size &&& (buffer_size - 1)) == 0
    && decide (buffer_size - 1 ≤ (2 ^ 64 - 1) >>> 1)

/-- The inner `while (to_write--)` loop of the callback variant of `writeBuff`: writes
the given items at consecutive cursor positions `tmp_head++ & buffer_mask`. -/
def writeSeq (N : Nat) (buf : Nat → α) (hd : Nat) : List α → (Nat → α)
  | [] => buf
  | x :: xs => writeSeq N (upd buf (slot N hd) x) (hd + 1) xs

/-- The outer `while (written < count)` loop of
`writeBuff(buff, count, count_to_callback, execute_data_callback)` against a quiescent
consumer (the `tail` load of each iteration returns the constant `tl`).  Returns the
storage, the published head cursor, the total written, and the list of per-iteration
chunk sizes — `head` is published and the callback invoked once per iteration, after
that iteration's chunk.  Each iteration writes at least one element, so the `count + 1`
units of fuel supplied by the wrapper are never exhausted. -/
def writeBuffLoop (N tl : Nat) (src : List α) (count : Nat) :
    Nat → (Nat → α) → Nat → Nat → Nat → (Nat → α) × Nat × Nat × List Nat
  | 0, buf, hd, written, _ => (buf, hd, written, [])
  | fuel + 1, buf, hd, written, to_write =>
    if written < count then
      let available := N - (hd - tl)
      if available = 0 then (buf, hd, written, [])
      else
        let w := if to_write > available then available else to_write
        let buf2 := writeSeq N buf hd ((src.drop written).take w)
        let r := writeBuffLoop N tl src count fuel buf2 (hd + w) (written + w)
          (count - (written + w))
        (r.1, r.2.1, r.2.2.1, w :: r.2.2.2)
    else (buf, hd, written, [])

/-- `writeBuff(buff, count, count_to_callback, execute_data_callback)` (the callback
overload), sequentially: the initial `to_write` is `count_to_callback` when
`count_to_callback != 0 && count_to_callback < count`, else `count`. -/
def writeBuffCb (N : Nat) (s : State α) (src : List α) (count ctc : Nat) :
    State α × Nat × List Nat :=
  let to_write := if ctc ≠ 0 ∧ ctc < count then ctc else count
  let r := writeBuffLoop N s.tail src count (count + 1) s.data_buff s.head 0 to_write
  (⟨r.2.1, s.tail, r.1⟩, r.2.2.1, r.2.2.2)

end CycleBuffer

namespace LockFree

/-- State of `cyclic_buffer_lock_free<_Type, _BufferSize>`. -/
structure State (α : Type) where
  mLastIndex : Nat
  mFirstIndex : Nat
  mDataBuffer : Nat → α

variable {α : Type}

/-- Default construction: `mLastIndex{0}`, `mFirstIndex{0}`, value-initialised storage. -/
def init (d : α) : State α := ⟨0, 0, fun _ => d⟩

/-- `available_to_read()`: `((mLastIndex + _BufferSize) - mFirstIndex) & mBufferSizeMask`.
Note the result is masked into `[0, _BufferSize - 1]`. -/
def available_to_read (N : Nat) (s : State α) : Nat :=
  ((s.mLastIndex + N) - s.mFirstIndex) &&& (N - 1)

/-- `available_to_write()`: `_BufferSize - available_to_read()`. -/
def available_to_write (N : Nat) (s : State α) : Nat := N - available_to_read N s

/-- `try_to_insert(_Type data)` (the by-value overload): gated on
`available_to_write() == 0`. -/
def try_to_insert_val (N : Nat) (x : α) (s : State α) : Bool × State α :=
  if available_to_write N s = 0 then (false, s)
  else
    (true, { s with mLastIndex := s.mLastIndex + 1,
                    mDataBuffer := upd s.mDataBuffer (slot N s.mLastIndex) x })

/-- `try_to_insert(const _Type* data)`: gated on `tmp_head - mFirstIndex == _BufferSize`. -/
def try_to_insert_ptr (N : Nat) (x : α) (s : State α) : Bool × State α :=
  if s.mLastIndex - s.mFirstIndex = N then (false, s)
  else
    (true, { s with mLastIndex := s.mLastIndex + 1,
                    mDataBuffer := upd s.mDataBuffer (slot N s.mLastIndex) x })

/-- `remove(size_t cnt)`: clamps `cnt` to `mLastIndex - mFirstIndex` (plain cursor
difference, not `available_to_read()`), advances `mFirstIndex`. -/
def removeCnt (cnt : Nat) (s : State α) : Nat × State α :=
  let avail := s.mLastIndex - s.mFirstIndex
  let c := if cnt > avail then avail else cnt
  (c, { s with mFirstIndex := s.mFirstIndex + c })

/-- `remove(_Type* data)`. -/
def removeGet (N : Nat) (s : State α) : Option α × State α :=
  if s.mFirstIndex = s.mLastIndex then (none, s)
  else (some (s.mDataBuffer (slot N s.mFirstIndex)), { s with mFirstIndex := s.mFirstIndex + 1 })

/-- `clear()`: when the raw `mLastIndex` equals `_BufferSize - 1` it is first reset to 0;
then `mFirstIndex` is set to the (possibly reset) `mLastIndex`. -/
def clear (N : Nat) (s : State α) : State α :=
  let s1 := if s.mLastIndex = N - 1 then { s with mLastIndex := 0 } else s
  { s1 with mFirstIndex := s1.mLastIndex }

/-- `operator[](size_t index)`: unchecked access at
`(mFirstIndex + index) & mBufferSizeMask`. -/
def opIndex (N : Nat) (s : State α) (index : Nat) : α :=
  s.mDataBuffer (slot N (s.mFirstIndex + index))

end LockFree

/-- Fold a list of values into a lock-free buffer with the by-value
`try_to_insert` overload, keeping only the state. -/
def lfInsertValAll (N : Nat) (vs : List Nat) : LockFree.State Nat :=
  vs.foldl (fun s v => (LockFree.try_to_insert_val N v s).2) (LockFree.init 0)

/-- Fold a list of values into a lock-free buffer with the by-pointer
`try_to_insert` overload, keeping only the state. -/
def lfInsertPtrAll (N : Nat) (vs : List Nat) : LockFree.State Nat :=
  vs.foldl (fun s v => (LockFree.try_to_insert_ptr N v s).2) (LockFree.init 0)

/-- Fold a list of values into a `Cycle_Buffer`, keeping only the state. -/
def cbInsertFold (N : Nat) (vs : List Nat) : CycleBuffer.State Nat :=
  vs.foldl (fun s v => (CycleBuffer.insert N v s).2) (CycleBuffer.init 0)

/-- Fuel-based floor of log₂ (the fuel makes it structurally recursive, so the kernel can
evaluate it); `log2floor n` is meaningful for `1 ≤ n`. -/
def log2floorAux : Nat → Nat → Nat
  | 0, _ => 0
  | fuel + 1, n => if n ≤ 1 then 0 else log2floorAux fuel (n / 2) + 1

/-- `log2floor n = ⌊log₂ n⌋` for `n ≥ 1`. -/
def log2floor (n : Nat) : Nat := log2floorAux n n

/-- Exponent of the least power of two that is ≥ `n` (0 for `n ≤ 1`). -/
def pow2ceilExp (n : Nat) : Nat := if n ≤ 1 then 0 else log2floor (n - 1) + 1

/-- The least power of two ≥ `n` (1 for `n = 0`). -/
def pow2ceil (n : Nat) : Nat := 2 ^ pow2ceilExp n

/-- The publication pattern claim C7 describes for `0 < chunk_size < count` when
availability is never exhausted: `on_chunk` fires after every successive group of
`chunk_size` items, the last group holding the remainder. -/
def everyChunkSizeGroups (count ctc : Nat) : List Nat :=
  if ctc = 0 then []
  else
    (List.range (count / ctc)).map (fun _ => ctc)
      ++ (if count % ctc = 0 then [] else [count % ctc])

/-- The chunk sizes the code actually publishes for `0 < ctc < count` against initial
availability `A` and a quiescent consumer: the first chunk is `min ctc A`; if items and
availability remain, one further chunk takes all remaining items bounded by the remaining
availability; the loop stops (without a callback) once availability is exhausted. -/
def chunksSpec (A count ctc : Nat) : List Nat :=
  if A = 0 then []
  else
    let g1 := min ctc A
    if count - g1 = 0 then [g1]
    else if A - g1 = 0 then [g1]
    else [g1, min (count - g1) (A - g1)]

namespace CircBufLF

/-- One bit-smearing line `num |= num >> s` of `CircularBufferLF::nextPowerOf2`. -/
def smearStep (x s : Nat) : Nat := x ||| (x >>> s)

/-- The six smearing lines (shifts 1,2,4,8,16,32; the `>> 32` line is active on the
64-bit targets selected by the source's preprocessor test). -/
def smear64 (n : Nat) : Nat :=
  smearStep (smearStep (smearStep (smearStep (smearStep (smearStep n 1) 2) 4) 8) 16) 32

/-- `CircularBufferLF::nextPowerOf2` on 64-bit `size_t`: 1 for 0, otherwise decrement,
smear, increment.  Only the final `+ 1` can wrap a `size_t`, hence the `% 2 ^ 64`. -/
def nextPowerOf2 (num : Nat) : Nat :=
  if num = 0 then 1 else (smear64 (num - 1) + 1) % 2 ^ 64

/-- State of `CircularBufferLF<T>`. -/
structure CBState (α : Type) where
  m_capacity : Nat
  m_readIndex : Nat
  m_writeIndex : Nat
  m_buffer : Nat → α

variable {α : Type}

/-- The constructor `CircularBufferLF(size)`: capacity is `nextPowerOf2(size)`; the
`std::invalid_argument` throw (modelled as `none`) fires only when the computed capacity
fails the `(m_capacity & (m_capacity - 1)) != 0` test. -/
def construct (α : Type) (d : α) (size : Nat) : Option (CBState α) :=
  let cap := nextPowerOf2 size
  if cap &&& (cap - 1) ≠ 0 then none
  else some ⟨cap, 0, 0, fun _ => d⟩

/-- `increment(index)`: `(index + 1) & (m_capacity - 1)`. -/
def increment (cap index : Nat) : Nat := (index + 1) &&& (cap - 1)

/-- `push(item)`: refuses when the incremented write index meets the read index. -/
def push (x : α) (s : CBState α) : Bool × CBState α :=
  let currentWrite := s.m_writeIndex
  let nextWrite := increment s.m_capacity currentWrite
  if nextWrite = s.m_readIndex then (false, s)
  else (true, { s with m_buffer := upd s.m_buffer currentWrite x, m_writeIndex := nextWrite })

/-- `pop(item)`. -/
def pop (s : CBState α) : Option α × CBState α :=
  if s.m_readIndex = s.m_writeIndex then (none, s)
  else (some (s.m_buffer s.m_readIndex),
        { s with m_readIndex := increment s.m_capacity s.m_readIndex })

/-- `clear()`: both indices back to 0. -/
def clear (s : CBState α) : CBState α := { s with m_readIndex := 0, m_writeIndex := 0 }

/-- `capacity()`. -/
def capacity (s : CBState α) : Nat := s.m_capacity

/-- `size()`: `(m_writeIndex - m_readIndex + m_capacity) & (m_capacity - 1)`.  The
unsigned subtraction is reassociated as `(m_writeIndex + m_capacity) - m_readIndex`; for
indices below the capacity (a power of two dividing 2^64) this equals the 64-bit value. -/
def size (s : CBState α) : Nat :=
  ((s.m_writeIndex + s.m_capacity) - s.m_readIndex) &&& (s.m_capacity - 1)

end CircBufLF

namespace SoftRing

/-- Modelled from the spec: the growable ring `Soft_Ring_Buffer_Ex` wraps a fixed ring
behind a shared/exclusive lock.  The bodies of `Soft_Ring_Buffer_Ex::putbytes_` and
`Soft_Ring_Buffer_Ex::grow_` are not among the sources under review
(include/cppsl/buffer/ringBuffer.hpp only declares them; ringBuffer.tcc only dispatches
`put` to `putbytes_`), so growth is modelled from §4.2 of the spec.  The capacity
exponent `k` is stored so that the wrapped capacity `2 ^ k` is a power of two, as the
spec requires of FixedRing. -/
structure GState (α : Type) where
  k : Nat
  ring : CycleBuffer.State α

/-- Modelled from the spec: `ceil(c * 1.5)` on naturals. -/
def ceil15 (c : Nat) : Nat := (3 * c + 1) / 2

/-- Modelled from the spec: the capacity exponent after one growth step —
`ceil(old_capacity * 1.5)` rounded up to the next power of two. -/
def growExp (c : Nat) : Nat := pow2ceilExp (ceil15 c)

/-- Modelled from the spec: insert with on-demand growth.  A failing `try_insert`
against the wrapped ring triggers allocation of a ring of the grown capacity, a copy of
all unread elements in oldest-to-newest order starting at index 0, and a retry of the
insert. -/
def ginsert {α : Type} [Inhabited α] (x : α) (g : GState α) : GState α :=
  let r := CycleBuffer.insert (2 ^ g.k) x g.ring
  if r.1 then ⟨g.k, r.2⟩
  else
    let elems := CycleBuffer.toList (2 ^ g.k) g.ring
    let k2 := growExp (2 ^ g.k)
    let ring2 : CycleBuffer.State α := ⟨elems.length, 0, fun i => elems.getD i default⟩
    ⟨k2, (CycleBuffer.insert (2 ^ k2) x ring2).2⟩

end SoftRing

/-! ## Theorems -/

theorem slot_eq_mod (k c : Nat) : slot (2 ^ k) c = c % 2 ^ k :=
  Nat.and_pow_two_sub_one_eq_mod c k

theorem upd_same {α : Type} (f : Nat → α) (i : Nat) (x : α) : upd f i x i = x := by
  simp [upd]

theorem upd_other {α : Type} (f : Nat → α) (i j : Nat) (x : α) (h : j ≠ i) :
    upd f i x j = f j := by
  simp [upd, h]

/-- C1.  In `cyclic_buffer_lock_free<_,4>`, after four successful by-value inserts of
1,2,3,4 into a fresh buffer nothing has been consumed, yet `available_to_write()` still
reports 4 (its `& mask` arithmetic maps the full state to 0 available-to-read), so a fifth
`try_to_insert(5)` returns `true` and overwrites slot 0, which still holds the unconsumed
element 1.  This contradicts the claim that an insert returning `true` never overwrites an
unconsumed slot and that `try_insert` fails when no space is available. -/
theorem c1_lockfree_insert_overwrites_unconsumed :
    (lfInsertValAll 4 [1, 2, 3, 4]).mLastIndex = 4
    ∧ (lfInsertValAll 4 [1, 2, 3, 4]).mFirstIndex = 0
    ∧ (lfInsertValAll 4 [1, 2, 3, 4]).mDataBuffer 0 = 1
    ∧ LockFree.available_to_write 4 (lfInsertValAll 4 [1, 2, 3, 4]) = 4
    ∧ (LockFree.try_to_insert_val 4 5 (lfInsertValAll 4 [1, 2, 3, 4])).1 = true
    ∧ (LockFree.try_to_insert_val 4 5 (lfInsertValAll 4 [1, 2, 3, 4])).2.mDataBuffer 0 = 5 := by
  decide

/-- C2.  A capacity-2 `cyclic_buffer_lock_free` filled by two successful by-pointer
inserts reaches the full state `head - tail = 2 = N`, but `available_to_read()` reports 0
there (its `& mask` folds `N` to 0), not `N`; so `available_to_read` does not equal `N`
exactly when the ring is full, and it is 0 in a non-empty state. -/
theorem c2_lockfree_available_to_read_wrong_at_full :
    (LockFree.try_to_insert_ptr 2 7 (LockFree.init 0)).1 = true
    ∧ (LockFree.try_to_insert_ptr 2 9 (lfInsertPtrAll 2 [7])).1 = true
    ∧ (lfInsertPtrAll 2 [7, 9]).mLastIndex - (lfInsertPtrAll 2 [7, 9]).mFirstIndex = 2
    ∧ LockFree.available_to_read 2 (lfInsertPtrAll 2 [7, 9]) = 0
    ∧ (0 : Nat) ≠ 2 := by
  decide

/-- C6.  `cyclic_buffer_lock_free::clear()` does not just assign `tail := head`: when the
raw head cursor equals `_BufferSize - 1` it resets the head cursor to 0.  After three
inserts into a capacity-4 buffer the head cursor is 3; `clear()` then leaves head = 0, not
3.  The safe variant `Cycle_Buffer::consumerClear` does keep head intact (shown on the
analogous state). -/
theorem c6_lockfree_clear_resets_head :
    (lfInsertPtrAll 4 [1, 2, 3]).mLastIndex = 3
    ∧ (LockFree.clear 4 (lfInsertPtrAll 4 [1, 2, 3])).mLastIndex = 0
    ∧ (LockFree.clear 4 (lfInsertPtrAll 4 [1, 2, 3])).mFirstIndex = 0
    ∧ (LockFree.clear 4 (lfInsertPtrAll 4 [1, 2, 3])).mLastIndex
        ≠ (lfInsertPtrAll 4 [1, 2, 3]).mLastIndex
    ∧ (CycleBuffer.consumerClear (cbInsertFold 4 [1, 2, 3])).head = 3
    ∧ (CycleBuffer.consumerClear (cbInsertFold 4 [1, 2, 3])).tail = 3 := by
  decide

/-- C8.  `remove(size_t cnt)` advances the consumer cursor by exactly
`min(cnt, available)` where `available` is the cursor difference (`readAvailable()` in
`Cycle_Buffer`, `mLastIndex - mFirstIndex` in the lock-free variant), copies nothing,
leaves the producer cursor and the storage untouched, and returns that minimum.  The
`tail ≤ head` hypotheses state that the unsigned cursor difference is the truncated
difference, true in every reachable state. -/
theorem c8_removeCnt_advances_tail_by_min {α : Type} (cnt : Nat)
    (s : CycleBuffer.State α) (t : LockFree.State α)
    (hs : s.tail ≤ s.head) (ht : t.mFirstIndex ≤ t.mLastIndex) :
    CycleBuffer.removeCnt cnt s
      = (min cnt (CycleBuffer.readAvailable s),
         { s with tail := s.tail + min cnt (CycleBuffer.readAvailable s) })
    ∧ (CycleBuffer.removeCnt cnt s).2.head = s.head
    ∧ (CycleBuffer.removeCnt cnt s).2.data_buff = s.data_buff
    ∧ LockFree.removeCnt cnt t
      = (min cnt (t.mLastIndex - t.mFirstIndex),
         { t with mFirstIndex := t.mFirstIndex + min cnt (t.mLastIndex - t.mFirstIndex) })
    ∧ (LockFree.removeCnt cnt t).2.mLastIndex = t.mLastIndex
    ∧ (LockFree.removeCnt cnt t).2.mDataBuffer = t.mDataBuffer := by
  have h1 : (if (s.head - s.tail) < cnt then s.head - s.tail else cnt)
      = min cnt (s.head - s.tail) := by
    rw [Nat.min_def]; split <;> split <;> omega
  have h2 : (if (t.mLastIndex - t.mFirstIndex) < cnt then t.mLastIndex - t.mFirstIndex else cnt)
      = min cnt (t.mLastIndex - t.mFirstIndex) := by
    rw [Nat.min_def]; split <;> split <;> omega
  refine ⟨?_, ?_, ?_, ?_, ?_, ?_⟩ <;>
    simp [CycleBuffer.removeCnt, LockFree.removeCnt, CycleBuffer.readAvailable, h1, h2]

/-- Witness for C8 at a concrete input: a state with head 3, tail 1; removing 5 discards
exactly min 5 2 = 2. -/
theorem c8_removeCnt_witness :
    (CycleBuffer.removeCnt 5 (⟨3, 1, fun _ => 0⟩ : CycleBuffer.State Nat)).1 = 2
    ∧ (CycleBuffer.removeCnt 5 (⟨3, 1, fun _ => 0⟩ : CycleBuffer.State Nat)).2.tail = 3 := by
  have h := c8_removeCnt_advances_tail_by_min (α := Nat) 5
    (⟨3, 1, fun _ => 0⟩ : CycleBuffer.State Nat) (⟨3, 1, fun _ => 0⟩ : LockFree.State Nat)
    (by decide) (by decide)
  rw [h.1]
  exact ⟨rfl, rfl⟩

/-- C10.  `operator[]` is unchecked, yet for every index the accessed slot
`(tail + index) & buffer_mask` is below `buffer_size` (a power of two), so the access
stays inside the backing array; out-of-range indexes alias some in-bounds slot. -/
theorem c10_opIndex_slot_in_bounds {α : Type} (k : Nat)
    (s : CycleBuffer.State α) (t : LockFree.State α) (index : Nat) :
    CycleBuffer.opIndex (2 ^ k) s index = s.data_buff (slot (2 ^ k) (s.tail + index))
    ∧ slot (2 ^ k) (s.tail + index) < 2 ^ k
    ∧ LockFree.opIndex (2 ^ k) t index = t.mDataBuffer (slot (2 ^ k) (t.mFirstIndex + index))
    ∧ slot (2 ^ k) (t.mFirstIndex + index) < 2 ^ k := by
  refine ⟨rfl, ?_, rfl, ?_⟩ <;>
    · rw [slot_eq_mod]
      exact Nat.mod_lt _ (Nat.pos_pow_of_pos k (by norm_num))

/-- Distinct offsets below the (power-of-two) capacity occupy distinct slots. -/
theorem slot_add_ne (k t i d : Nat) (hi : i < d) (hd : d < 2 ^ k) :
    slot (2 ^ k) (t + i) ≠ slot (2 ^ k) (t + d) := by
  rw [slot_eq_mod, slot_eq_mod]
  intro h
  have h2 : i % 2 ^ k = d % 2 ^ k := Nat.ModEq.add_left_cancel' t h
  rw [Nat.mod_eq_of_lt (lt_trans hi hd), Nat.mod_eq_of_lt hd] at h2
  omega

namespace CycleBuffer

variable {α : Type}

/-- A non-full `insert` succeeds and produces the expected cursor/storage update. -/
theorem insert_eq (k : Nat) (x : α) (s : State α) (h2 : s.head - s.tail < 2 ^ k) :
    insert (2 ^ k) x s
      = (true, { s with head := s.head + 1,
                        data_buff := upd s.data_buff (slot (2 ^ k) s.head) x }) := by
  unfold insert
  rw [if_neg (by omega)]

/-- A non-full `insert` appends the new element to the unread sequence: the write at
`head & mask` does not clobber any unread slot. -/
theorem toList_insert (k : Nat) (x : α) (s : State α) (h1 : s.tail ≤ s.head)
    (h2 : s.head - s.tail < 2 ^ k) :
    toList (2 ^ k)
        { s with head := s.head + 1, data_buff := upd s.data_buff (slot (2 ^ k) s.head) x }
      = toList (2 ^ k) s ++ [x] := by
  have hh : s.head = s.tail + (s.head - s.tail) := by omega
  simp only [toList]
  have hd1 : s.head + 1 - s.tail = (s.head - s.tail) + 1 := by omega
  rw [hd1, List.range_succ, List.map_append, List.map_cons, List.map_nil]
  congr 1
  · refine List.map_congr_left fun i hi => ?_
    rw [List.mem_range] at hi
    refine upd_other _ _ _ _ ?_
    rw [hh]
    exact slot_add_ne k s.tail i (s.head - s.tail) hi h2
  · rw [← hh, upd_same]

/-- `insertAll` on a ring with enough free room: every insert succeeds, the producer
cursor advances by the list length, and the unread sequence gains exactly that list. -/
theorem insertAll_spec (k : Nat) (vs : List α) :
    ∀ s : State α, s.tail ≤ s.head → s.head - s.tail + vs.length ≤ 2 ^ k →
      (insertAll (2 ^ k) vs s).1 = true
      ∧ (insertAll (2 ^ k) vs s).2.head = s.head + vs.length
      ∧ (insertAll (2 ^ k) vs s).2.tail = s.tail
      ∧ toList (2 ^ k) (insertAll (2 ^ k) vs s).2 = toList (2 ^ k) s ++ vs := by
  induction vs with
  | nil => intro s h1 h2; simp [insertAll]
  | cons x xs ih =>
    intro s h1 h2
    have hlen : s.head - s.tail + (xs.length + 1) ≤ 2 ^ k := by
      simpa [List.length_cons] using h2
    have h2' : s.head - s.tail < 2 ^ k := by omega
    have hi := insert_eq k x s h2'
    have ih' := ih { s with head := s.head + 1,
                            data_buff := upd s.data_buff (slot (2 ^ k) s.head) x }
      (by simp; omega) (by simp; omega)
    simp only [insertAll, hi]
    refine ⟨by simp [ih'.1], by simp [ih'.2.1]; omega, by simp [ih'.2.2.1], ?_⟩
    rw [ih'.2.2.2, toList_insert k x s h1 h2', List.append_assoc, List.singleton_append]

/-- A non-empty ring: its unread sequence starts with the element at `tail & mask`, and
advancing `tail` drops exactly that element. -/
theorem toList_cons (k d : Nat) (s : State α) (hhead : s.head = s.tail + (d + 1)) :
    toList (2 ^ k) s
      = s.data_buff (slot (2 ^ k) s.tail) :: toList (2 ^ k) { s with tail := s.tail + 1 } := by
  simp only [toList]
  have h1 : s.head - s.tail = d + 1 := by omega
  have h2 : s.head - (s.tail + 1) = d := by omega
  rw [h1, h2, List.range_succ_eq_map, List.map_cons, List.map_map]
  refine congrArg₂ _ (by rw [Nat.add_zero]) ?_
  refine List.map_congr_left fun i _ => ?_
  simp only [Function.comp]
  refine congrArg _ (congrArg _ ?_)
  omega

/-- `removeGet` on a non-empty ring returns the oldest element and advances `tail`. -/
theorem removeGet_eq (k : Nat) (s : State α) (hne : s.tail ≠ s.head) :
    removeGet (2 ^ k) s
      = (some (s.data_buff (slot (2 ^ k) s.tail)), { s with tail := s.tail + 1 }) := by
  unfold removeGet
  rw [if_neg hne]

/-- Removing exactly the number of unread elements yields them all, in order. -/
theorem removeAll_spec (k : Nat) :
    ∀ (d : Nat) (s : State α), s.head = s.tail + d →
      (removeAll (2 ^ k) d s).1 = (toList (2 ^ k) s).map some := by
  intro d
  induction d with
  | zero =>
    intro s h
    simp [removeAll, toList, show s.head - s.tail = 0 by omega]
  | succ e ih =>
    intro s h
    have hne : s.tail ≠ s.head := by omega
    have ih' := ih { s with tail := s.tail + 1 } (by simp; omega)
    simp only [removeAll, removeGet_eq k s hne]
    rw [toList_cons k e s h, List.map_cons, ih']

end CycleBuffer

/-- C3.  Round-trip through `Cycle_Buffer`: inserting any sequence of at most
`buffer_size` values into a fresh ring succeeds for every element, and that many
single-element removes then return exactly the same values in the same order —
no reordering, duplication, or loss. -/
theorem c3_round_trip {α : Type} (k : Nat) (vs : List α) (d : α)
    (h : vs.length ≤ 2 ^ k) :
    (CycleBuffer.insertAll (2 ^ k) vs (CycleBuffer.init d)).1 = true
    ∧ (CycleBuffer.removeAll (2 ^ k) vs.length
        (CycleBuffer.insertAll (2 ^ k) vs (CycleBuffer.init d)).2).1 = vs.map some := by
  have hs := CycleBuffer.insertAll_spec k vs (CycleBuffer.init d)
    (by simp [CycleBuffer.init]) (by simp [CycleBuffer.init]; omega)
  refine ⟨hs.1, ?_⟩
  rw [CycleBuffer.removeAll_spec k vs.length _ (by rw [hs.2.1, hs.2.2.1]; simp [CycleBuffer.init]),
    hs.2.2.2]
  simp [CycleBuffer.toList, CycleBuffer.init]

/-- Witness for C3: three values into a capacity-4 ring come back unchanged. -/
theorem c3_round_trip_witness :
    (CycleBuffer.insertAll (2 ^ 2) [10, 20, 30] (CycleBuffer.init 0)).1 = true
    ∧ (CycleBuffer.removeAll (2 ^ 2) 3
        (CycleBuffer.insertAll (2 ^ 2) [10, 20, 30] (CycleBuffer.init 0)).2).1
      = [some 10, some 20, some 30] := by
  have h := c3_round_trip (α := Nat) 2 [10, 20, 30] 0 (by decide)
  simpa using h

theorem log2floorAux_spec :
    ∀ fuel n : Nat, 1 ≤ n → n ≤ fuel →
      2 ^ log2floorAux fuel n ≤ n ∧ n < 2 ^ (log2floorAux fuel n + 1) := by
  intro fuel
  induction fuel with
  | zero => intro n h1 h2; omega
  | succ f ih =>
    intro n h1 h2
    by_cases hn : n ≤ 1
    · have h : n = 1 := by omega
      subst h
      simp [log2floorAux]
    · have hrec := ih (n / 2) (by omega) (by omega)
      have hr1 := hrec.1
      have hr2 := hrec.2
      simp only [log2floorAux, if_neg hn]
      rw [pow_succ] at hr2 ⊢
      rw [pow_succ]
      constructor
      · omega
      · omega

theorem log2floor_spec (n : Nat) (h : 1 ≤ n) :
    2 ^ log2floor n ≤ n ∧ n < 2 ^ (log2floor n + 1) :=
  log2floorAux_spec n n h le_rfl

theorem pow2ceil_ge (n : Nat) : n ≤ pow2ceil n := by
  unfold pow2ceil pow2ceilExp
  split
  · simpa using by omega
  · rename_i hn
    have h := (log2floor_spec (n - 1) (by omega)).2
    omega

theorem pow2ceil_le_pow (n jj : Nat) (h : n ≤ 2 ^ jj) : pow2ceil n ≤ 2 ^ jj := by
  unfold pow2ceil pow2ceilExp
  split
  · exact Nat.one_le_two_pow
  · rename_i hn
    have h1 := (log2floor_spec (n - 1) (by omega)).1
    refine Nat.pow_le_pow_right (by norm_num) ?_
    have h2 : 2 ^ log2floor (n - 1) < 2 ^ jj := by omega
    exact (Nat.pow_lt_pow_iff_right (by norm_num)).1 h2

namespace CircBufLF

/-- If all bit positions within `W` below `i` are set in `x`, then after `x ||| (x >>> (W+1))`
all positions within `2W + 1` below `i` are set. -/
theorem smearStep_covers (x i W : Nat)
    (h : ∀ e, e ≤ W → e ≤ i → x.testBit (i - e) = true) :
    ∀ e, e ≤ 2 * W + 1 → e ≤ i → (smearStep x (W + 1)).testBit (i - e) = true := by
  intro e he hei
  unfold smearStep
  rw [Nat.testBit_or]
  by_cases hW : e ≤ W
  · rw [h e hW hei]
    simp
  · have h1 : (x >>> (W + 1)).testBit (i - e) = x.testBit ((W + 1) + (i - e)) :=
      Nat.testBit_shiftRight x
    have h2 : (W + 1) + (i - e) = i - (e - (W + 1)) := by omega
    rw [h1, h2, h (e - (W + 1)) (by omega) (by omega)]
    simp

theorem smearStep_lt (x sft n : Nat) (h : x < 2 ^ n) : smearStep x sft < 2 ^ n := by
  unfold smearStep
  refine Nat.or_lt_two_pow h ?_
  calc x >>> sft ≤ x := by
        rw [Nat.shiftRight_eq_div_pow]
        exact Nat.div_le_self _ _
    _ < 2 ^ n := h

/-- The bit at `⌊log₂ m⌋` is set. -/
theorem testBit_log2floor (m : Nat) (h : 1 ≤ m) : m.testBit (log2floor m) = true := by
  obtain ⟨hle, hlt⟩ := log2floor_spec m h
  rw [Nat.testBit_to_div_mod]
  have hd : m / 2 ^ log2floor m = 1 := by
    have h1 : 1 ≤ m / 2 ^ log2floor m :=
      (Nat.one_le_div_iff (Nat.pos_pow_of_pos _ (by norm_num))).2 hle
    have h2 : m / 2 ^ log2floor m < 2 := by
      refine (Nat.div_lt_iff_lt_mul (Nat.pos_pow_of_pos _ (by norm_num))).2 ?_
      rw [pow_succ] at hlt
      omega
    omega
  rw [hd]
  simp

theorem smear64_covers (m i : Nat) (h : m.testBit i = true) :
    ∀ e, e ≤ 63 → e ≤ i → (smear64 m).testBit (i - e) = true := by
  have c0 : ∀ e, e ≤ 0 → e ≤ i → m.testBit (i - e) = true := by
    intro e he _
    have h0 : e = 0 := by omega
    subst h0
    simpa using h
  have c1 := smearStep_covers m i 0 c0
  have c2 := smearStep_covers (smearStep m 1) i 1 (fun e he => c1 e (by omega))
  have c3 := smearStep_covers (smearStep (smearStep m 1) 2) i 3 (fun e he => c2 e (by omega))
  have c4 := smearStep_covers (smearStep (smearStep (smearStep m 1) 2) 4) i 7
    (fun e he => c3 e (by omega))
  have c5 := smearStep_covers (smearStep (smearStep (smearStep (smearStep m 1) 2) 4) 8) i 15
    (fun e he => c4 e (by omega))
  have c6 := smearStep_covers
    (smearStep (smearStep (smearStep (smearStep (smearStep m 1) 2) 4) 8) 16) i 31
    (fun e he => c5 e (by omega))
  intro e he hei
  exact c6 e (by omega) hei

theorem smear64_lt (m n : Nat) (h : m < 2 ^ n) : smear64 m < 2 ^ n := by
  unfold smear64
  exact smearStep_lt _ _ _ (smearStep_lt _ _ _ (smearStep_lt _ _ _ (smearStep_lt _ _ _
    (smearStep_lt _ _ _ (smearStep_lt _ _ _ h)))))

/-- The smear turns `m ≥ 1` into the all-ones pattern of its bit length. -/
theorem smear64_eq (m : Nat) (h1 : 1 ≤ m) (h2 : m < 2 ^ 64) :
    smear64 m = 2 ^ (log2floor m + 1) - 1 := by
  obtain ⟨hle, hlt⟩ := log2floor_spec m h1
  have htop := testBit_log2floor m h1
  have hcov := smear64_covers m (log2floor m) htop
  have ht63 : log2floor m ≤ 63 := by
    by_contra hc
    have hmono : 2 ^ 64 ≤ 2 ^ log2floor m := Nat.pow_le_pow_right (by norm_num) (by omega)
    omega
  have hub : smear64 m < 2 ^ (log2floor m + 1) := smear64_lt m _ hlt
  have hlb : 2 ^ (log2floor m + 1) - 1 ≤ smear64 m := by
    refine Nat.le_of_testBit fun i hi => ?_
    rw [Nat.testBit_two_pow_sub_one] at hi
    have hit : i ≤ log2floor m := by
      have := of_decide_eq_true hi
      omega
    have hc := hcov (log2floor m - i) (by omega) (by omega)
    rw [show log2floor m - (log2floor m - i) = i by omega] at hc
    exact hc
  omega

/-- On the representable range, `nextPowerOf2` computes the least power of two ≥ `num`. -/
theorem nextPowerOf2_eq_pow2ceil (num : Nat) (h : num ≤ 2 ^ 63) :
    nextPowerOf2 num = pow2ceil num := by
  by_cases h0 : num = 0
  · subst h0
    decide
  · by_cases h1 : num = 1
    · subst h1
      decide
    · have hm1 : 1 ≤ num - 1 := by omega
      have hm2 : num - 1 < 2 ^ 64 := by
        have hp : (2 : Nat) ^ 63 < 2 ^ 64 := by norm_num
        omega
      unfold nextPowerOf2 pow2ceil pow2ceilExp
      rw [if_neg h0, if_neg (by omega), smear64_eq (num - 1) hm1 hm2]
      have ht : log2floor (num - 1) ≤ 62 := by
        have hle := (log2floor_spec (num - 1) hm1).1
        by_contra hc
        have hmono : 2 ^ 63 ≤ 2 ^ log2floor (num - 1) :=
          Nat.pow_le_pow_right (by norm_num) (by omega)
        omega
      have hpos : 1 ≤ 2 ^ (log2floor (num - 1) + 1) := Nat.one_le_two_pow
      have hsmall : 2 ^ (log2floor (num - 1) + 1) < 2 ^ 64 :=
        Nat.pow_lt_pow_right (by norm_num) (by omega)
      rw [show 2 ^ (log2floor (num - 1) + 1) - 1 + 1 = 2 ^ (log2floor (num - 1) + 1) by omega]
      exact Nat.mod_eq_of_lt hsmall

theorem mod_two_blocks (v q : Nat) (h0 : 0 < q) (h : v < 2 * q) :
    v % q = if v < q then v else v - q := by
  split
  · exact Nat.mod_eq_of_lt (by assumption)
  · rename_i hge
    rw [Nat.mod_eq_sub_mod (by omega), Nat.mod_eq_of_lt (by omega)]

end CircBufLF

/-- C5.  The claim's failing sizes do not make `CircularBufferLF`'s constructor fail: the
constructor rounds the size up with `nextPowerOf2` and its power-of-two test then always
passes, so `CircularBufferLF(0/3/100)` all construct successfully (capacities 1, 4, 128)
instead of throwing the documented `std::invalid_argument`.  The compile-time
`static_assert`s of `Cycle_Buffer` do enforce the claimed predicate: 0, 3, 100 are
rejected and 16, 1 are accepted. -/
theorem c5_construction_never_throws :
    (CircBufLF.construct Nat 0 0).map CircBufLF.capacity = some 1
    ∧ (CircBufLF.construct Nat 0 3).map CircBufLF.capacity = some 4
    ∧ (CircBufLF.construct Nat 0 100).map CircBufLF.capacity = some 128
    ∧ (CircBufLF.construct Nat 0 16).map CircBufLF.capacity = some 16
    ∧ (CircBufLF.construct Nat 0 1).map CircBufLF.capacity = some 1
    ∧ CycleBuffer.staticAssertsHold 0 = false
    ∧ CycleBuffer.staticAssertsHold 3 = false
    ∧ CycleBuffer.staticAssertsHold 100 = false
    ∧ CycleBuffer.staticAssertsHold 16 = true
    ∧ CycleBuffer.staticAssertsHold 1 = true := by
  decide

end CppslBuffer

namespace CppslBuffer

namespace CircBufLF

/-- `(w + 1) & mask` meets the read index exactly when the stored count is `capacity - 1`. -/
theorem increment_meets_read_iff (j r w : Nat) (hr : r < 2 ^ j) (hw : w < 2 ^ j) :
    ((w + 1) % 2 ^ j = r ↔ ((w + 2 ^ j) - r) % 2 ^ j = 2 ^ j - 1) := by
  have hq : 0 < 2 ^ j := Nat.pos_pow_of_pos j (by norm_num)
  have h1 : (w + 1) % 2 ^ j = if w + 1 < 2 ^ j then w + 1 else (w + 1) - 2 ^ j :=
    mod_two_blocks _ _ hq (by omega)
  have h2 : ((w + 2 ^ j) - r) % 2 ^ j
      = if (w + 2 ^ j) - r < 2 ^ j then (w + 2 ^ j) - r else ((w + 2 ^ j) - r) - 2 ^ j :=
    mod_two_blocks _ _ hq (by omega)
  rw [h1, h2]
  split <;> split <;> omega

end CircBufLF

/-- C9 counterexample: the constructor does not compute "the next power of two ≥ size"
for every requested size.  At size `2^63 + 1` the smear-and-increment wraps the 64-bit
`size_t` to 0, so `capacity()` is 0 — in particular not ≥ the requested size. -/
theorem c9_nextPowerOf2_overflows :
    CircBufLF.nextPowerOf2 (2 ^ 63 + 1) = 0
    ∧ ¬ (2 ^ 63 + 1 ≤ CircBufLF.nextPowerOf2 (2 ^ 63 + 1))
    ∧ (CircBufLF.construct Nat 0 (2 ^ 63 + 1)).map CircBufLF.capacity = some 0 := by
  refine ⟨by decide, by decide, ?_⟩
  decide

/-- C9 (amended to requested sizes ≤ 2^63, where the rounded-up capacity is
representable).  The constructed capacity is the least power of two ≥ the size (1 for
size 0, witnessed by `pow2ceil`, which is ≥ the size and ≤ any power of two ≥ the size);
construction succeeds with that capacity.  For every state with a power-of-two capacity
and in-range indices — as established by the constructor and preserved below — `size()`
never exceeds `capacity() - 1`, `push` fails exactly when `size()` equals
`capacity() - 1` (the buffer keeps one slot wasted), and `push`, `pop` and `clear`
preserve the in-range-index invariant and the capacity. -/
theorem c9_capacity_and_wasted_slot {α : Type} (x d : α) (sz j jj : Nat)
    (s : CircBufLF.CBState α)
    (hsz : sz ≤ 2 ^ 63) (hjj : sz ≤ 2 ^ jj) (hcap : s.m_capacity = 2 ^ j)
    (hr : s.m_readIndex < s.m_capacity) (hw : s.m_writeIndex < s.m_capacity) :
    CircBufLF.nextPowerOf2 sz = pow2ceil sz
    ∧ sz ≤ pow2ceil sz
    ∧ pow2ceil sz ≤ 2 ^ jj
    ∧ (CircBufLF.construct α d sz).map CircBufLF.capacity = some (pow2ceil sz)
    ∧ CircBufLF.size s ≤ s.m_capacity - 1
    ∧ ((CircBufLF.push x s).1 = false ↔ CircBufLF.size s = s.m_capacity - 1)
    ∧ (CircBufLF.push x s).2.m_capacity = s.m_capacity
    ∧ (CircBufLF.push x s).2.m_readIndex < s.m_capacity
    ∧ (CircBufLF.push x s).2.m_writeIndex < s.m_capacity
    ∧ (CircBufLF.pop s).2.m_capacity = s.m_capacity
    ∧ (CircBufLF.pop s).2.m_readIndex < s.m_capacity
    ∧ (CircBufLF.pop s).2.m_writeIndex < s.m_capacity
    ∧ (CircBufLF.clear s).m_capacity = s.m_capacity
    ∧ (CircBufLF.clear s).m_readIndex < s.m_capacity
    ∧ (CircBufLF.clear s).m_writeIndex < s.m_capacity := by
  have hq : 0 < 2 ^ j := Nat.pos_pow_of_pos j (by norm_num)
  have hnp := CircBufLF.nextPowerOf2_eq_pow2ceil sz hsz
  have hand : pow2ceil sz &&& (pow2ceil sz - 1) = 0 := by
    unfold pow2ceil
    rw [Nat.and_pow_two_sub_one_eq_mod]
    exact Nat.mod_self _
  have hsize : CircBufLF.size s = ((s.m_writeIndex + 2 ^ j) - s.m_readIndex) % 2 ^ j := by
    unfold CircBufLF.size
    rw [hcap, Nat.and_pow_two_sub_one_eq_mod]
  have hinc : ∀ i, CircBufLF.increment s.m_capacity i = (i + 1) % 2 ^ j := by
    intro i
    unfold CircBufLF.increment
    rw [hcap, Nat.and_pow_two_sub_one_eq_mod]
  rw [hcap] at hr hw
  refine ⟨hnp, pow2ceil_ge sz, pow2ceil_le_pow sz jj hjj, ?_, ?_, ?_, ?_, ?_, ?_, ?_, ?_, ?_,
    ?_, ?_, ?_⟩
  · unfold CircBufLF.construct
    rw [hnp]
    simp [hand, CircBufLF.capacity]
  · rw [hsize, hcap]
    have := Nat.mod_lt ((s.m_writeIndex + 2 ^ j) - s.m_readIndex) hq
    omega
  · have hiff := CircBufLF.increment_meets_read_iff j s.m_readIndex s.m_writeIndex hr hw
    rw [hsize, hcap]
    simp only [CircBufLF.push]
    rw [hinc]
    by_cases hcase : (s.m_writeIndex + 1) % 2 ^ j = s.m_readIndex
    · rw [if_pos hcase]
      simpa using hiff.1 hcase
    · rw [if_neg hcase]
      simp only []
      constructor
      · intro hfalse
        exact absurd hfalse (by simp)
      · intro hsz1
        exact absurd (hiff.2 hsz1) hcase
  · simp only [CircBufLF.push, hinc]
    split <;> simp [hcap]
  · simp only [CircBufLF.push, hinc]
    split <;> simp [hcap, hr]
  · simp only [CircBufLF.push, hinc]
    split
    · simpa [hcap] using hw
    · simpa [hcap] using Nat.mod_lt _ hq
  · simp only [CircBufLF.pop]
    split <;> simp [hcap]
  · simp only [CircBufLF.pop, hinc]
    split
    · simpa [hcap] using hr
    · simpa [hcap] using Nat.mod_lt _ hq
  · simp only [CircBufLF.pop]
    split <;> simp [hcap, hw]
  · simp [CircBufLF.clear, hcap]
  · simp [CircBufLF.clear, hcap, hq]
  · simp [CircBufLF.clear, hcap, hq]

/-- Witness for C9 at a concrete input: requested size 5 rounds to capacity 8, and the
state with capacity 4, read 1, write 3 stores 2 ≤ 3 elements. -/
theorem c9_capacity_witness :
    CircBufLF.nextPowerOf2 5 = pow2ceil 5
    ∧ CircBufLF.size (⟨4, 1, 3, fun _ => 0⟩ : CircBufLF.CBState Nat) ≤ 4 - 1 := by
  have h := c9_capacity_and_wasted_slot (α := Nat) 7 0 5 2 3
    (⟨4, 1, 3, fun _ => 0⟩ : CircBufLF.CBState Nat)
    (by decide) (by decide) (by decide) (by decide) (by decide)
  exact ⟨h.1, h.2.2.2.2.1⟩

end CppslBuffer

namespace CppslBuffer

namespace CycleBuffer

variable {α : Type}

/-- The write loop returns immediately (at any fuel) when either everything is written or
availability is exhausted. -/
theorem writeBuffLoop_stop (N tl : Nat) (src : List α) (count fuel : Nat) (buf : Nat → α)
    (hd written to_write : Nat) (h : written < count → N - (hd - tl) = 0) :
    writeBuffLoop N tl src count fuel buf hd written to_write = (buf, hd, written, []) := by
  cases fuel with
  | zero => rfl
  | succ f =>
    by_cases hlt : written < count
    · simp only [writeBuffLoop, if_pos hlt, h hlt, if_pos]
    · simp only [writeBuffLoop, if_neg hlt]

/-- One productive iteration of the write loop: it writes `min to_write available` items,
publishes the advanced head, records the chunk, and continues. -/
theorem writeBuffLoop_write (N tl : Nat) (src : List α) (count fuel : Nat) (buf : Nat → α)
    (hd written to_write w : Nat)
    (hlt : written < count) (hA : N - (hd - tl) ≠ 0)
    (hw : w = min to_write (N - (hd - tl))) :
    writeBuffLoop N tl src count (fuel + 1) buf hd written to_write
      = ((writeBuffLoop N tl src count fuel (writeSeq N buf hd ((src.drop written).take w))
            (hd + w) (written + w) (count - (written + w))).1,
         (writeBuffLoop N tl src count fuel (writeSeq N buf hd ((src.drop written).take w))
            (hd + w) (written + w) (count - (written + w))).2.1,
         (writeBuffLoop N tl src count fuel (writeSeq N buf hd ((src.drop written).take w))
            (hd + w) (written + w) (count - (written + w))).2.2.1,
         w :: (writeBuffLoop N tl src count fuel (writeSeq N buf hd ((src.drop written).take w))
            (hd + w) (written + w) (count - (written + w))).2.2.2) := by
  have hmin : (if to_write > N - (hd - tl) then N - (hd - tl) else to_write)
      = min to_write (N - (hd - tl)) := by
    rw [Nat.min_def]; split <;> split <;> omega
  subst hw
  simp only [writeBuffLoop, if_pos hlt, if_neg hA, hmin]

end CycleBuffer

end CppslBuffer

namespace CppslBuffer

/-- C7 (amended).  For `0 < chunk_size < count` against a quiescent consumer with
initial availability `A = buffer_size - (head - tail)`, the callback `writeBuff` returns
`min count A` (so it stops early exactly when availability runs out), publishes `head`
advanced by that amount, never moves `tail`, and the publication/callback pattern is
`chunksSpec`: the first chunk is `min chunk_size A` and — when items and availability
remain — one single further chunk of all remaining writable items follows
(`count_to_callback` limits only the first chunk, per the source's own doc comment),
rather than a chunk per `chunk_size` items. -/
theorem c7_writeBuffCb_chunks {α : Type} (k : Nat) (s : CycleBuffer.State α)
    (src : List α) (count ctc : Nat)
    (h1 : s.tail ≤ s.head) (h2 : s.head - s.tail ≤ 2 ^ k)
    (hctc : 0 < ctc) (hcount : ctc < count) :
    (CycleBuffer.writeBuffCb (2 ^ k) s src count ctc).2.1
        = min count (2 ^ k - (s.head - s.tail))
    ∧ (CycleBuffer.writeBuffCb (2 ^ k) s src count ctc).2.2
        = chunksSpec (2 ^ k - (s.head - s.tail)) count ctc
    ∧ (CycleBuffer.writeBuffCb (2 ^ k) s src count ctc).1.head
        = s.head + min count (2 ^ k - (s.head - s.tail))
    ∧ (CycleBuffer.writeBuffCb (2 ^ k) s src count ctc).1.tail = s.tail := by
  obtain ⟨f, rfl⟩ : ∃ f, count = f + 2 := ⟨count - 2, by omega⟩
  simp only [CycleBuffer.writeBuffCb,
    if_pos (show ctc ≠ 0 ∧ ctc < f + 2 from ⟨by omega, hcount⟩)]
  by_cases hA0 : 2 ^ k - (s.head - s.tail) = 0
  · rw [CycleBuffer.writeBuffLoop_stop _ _ _ _ _ _ _ _ _ (fun _ => hA0)]
    dsimp only
    refine ⟨by omega, ?_, by omega, trivial⟩
    simp only [chunksSpec, if_pos hA0]
  · rw [CycleBuffer.writeBuffLoop_write (2 ^ k) s.tail src (f + 2) (f + 2) s.data_buff
      s.head 0 ctc (min ctc (2 ^ k - (s.head - s.tail))) (by omega) hA0 rfl]
    simp only [Nat.zero_add]
    by_cases hA1 : 2 ^ k - (s.head + min ctc (2 ^ k - (s.head - s.tail)) - s.tail) = 0
    · rw [CycleBuffer.writeBuffLoop_stop _ _ _ _ _ _ _ _ _ (fun _ => hA1)]
      dsimp only
      refine ⟨by omega, ?_, by omega, trivial⟩
      simp only [chunksSpec, if_neg hA0,
        if_neg (show ¬ (f + 2 - min ctc (2 ^ k - (s.head - s.tail)) = 0) by omega),
        if_pos (show 2 ^ k - (s.head - s.tail) - min ctc (2 ^ k - (s.head - s.tail)) = 0
          by omega)]
    · rw [show (f : Nat) + 2 = f + 1 + 1 by omega]
      rw [CycleBuffer.writeBuffLoop_write (2 ^ k) s.tail src (f + 1 + 1) (f + 1) _
        (s.head + min ctc (2 ^ k - (s.head - s.tail)))
        (min ctc (2 ^ k - (s.head - s.tail)))
        (f + 1 + 1 - min ctc (2 ^ k - (s.head - s.tail)))
        (min (f + 1 + 1 - min ctc (2 ^ k - (s.head - s.tail)))
          (2 ^ k - (s.head + min ctc (2 ^ k - (s.head - s.tail)) - s.tail)))
        (by omega) hA1 rfl]
      rw [CycleBuffer.writeBuffLoop_stop _ _ _ _ _ _ _ _ _ (fun hlt3 => by omega)]
      dsimp only
      refine ⟨by omega, ?_, by omega, trivial⟩
      simp only [chunksSpec, if_neg hA0,
        if_neg (show ¬ (f + 1 + 1 - min ctc (2 ^ k - (s.head - s.tail)) = 0) by omega),
        if_neg (show ¬ (2 ^ k - (s.head - s.tail) - min ctc (2 ^ k - (s.head - s.tail)) = 0)
          by omega)]
      have e2 : min (f + 1 + 1 - min ctc (2 ^ k - (s.head - s.tail)))
            (2 ^ k - (s.head + min ctc (2 ^ k - (s.head - s.tail)) - s.tail))
          = min (f + 1 + 1 - min ctc (2 ^ k - (s.head - s.tail)))
            (2 ^ k - (s.head - s.tail) - min ctc (2 ^ k - (s.head - s.tail))) := by
        omega
      rw [e2]

end CppslBuffer

namespace CppslBuffer

/-- Reading a list back out of a copied array by successive indices reproduces it. -/
theorem list_range_getD {α : Type} (l : List α) (d : α) :
    (List.range l.length).map (fun i => l.getD i d) = l := by
  apply List.ext_getElem
  · simp
  · intro i h1 h2
    simp only [List.getElem_map, List.getElem_range]
    exact List.getD_eq_getElem l d h2

/-- The spec's growth copy: a ring whose storage holds the list `l` at indices 0..,
with head `l.length` and tail 0, reads back as exactly `l`. -/
theorem toList_copied {α : Type} [Inhabited α] (k2 : Nat) (l : List α)
    (h : l.length ≤ 2 ^ k2) :
    CycleBuffer.toList (2 ^ k2)
        (⟨l.length, 0, fun i => l.getD i default⟩ : CycleBuffer.State α) = l := by
  unfold CycleBuffer.toList
  dsimp only
  rw [Nat.sub_zero]
  rw [show (List.range l.length).map
        (fun i => l.getD (slot (2 ^ k2) (0 + i)) default)
      = (List.range l.length).map (fun i => l.getD i default)
    from List.map_congr_left fun i hi => by
      rw [List.mem_range] at hi
      rw [slot_eq_mod, Nat.zero_add, Nat.mod_eq_of_lt (by omega)]]
  exact list_range_getD l default

/-- C4 (spec-modelled growth).  When an insert against the full wrapped ring fails, the
growable ring replaces it by one of capacity `ceil(old * 1.5)` rounded up to the next
power of two — strictly larger than before; all unread elements are copied
oldest-to-newest starting at index 0; the retried insert succeeds (head becomes
`old_capacity + 1` over tail 0); and draining everything afterwards yields the original
unread sequence followed by the triggering element — nothing reordered or dropped. -/
theorem c4_growth_preserves_data {α : Type} [Inhabited α] (x : α) (g : SoftRing.GState α)
    (h1 : g.ring.tail ≤ g.ring.head) (hfull : g.ring.head - g.ring.tail = 2 ^ g.k) :
    (SoftRing.ginsert x g).k = SoftRing.growExp (2 ^ g.k)
    ∧ 2 ^ (SoftRing.ginsert x g).k = pow2ceil (SoftRing.ceil15 (2 ^ g.k))
    ∧ 2 ^ g.k < 2 ^ (SoftRing.ginsert x g).k
    ∧ (SoftRing.ginsert x g).ring.tail = 0
    ∧ (SoftRing.ginsert x g).ring.head = 2 ^ g.k + 1
    ∧ (∀ i, i < 2 ^ g.k →
        (SoftRing.ginsert x g).ring.data_buff i
          = (CycleBuffer.toList (2 ^ g.k) g.ring).getD i default)
    ∧ (CycleBuffer.removeAll (2 ^ (SoftRing.ginsert x g).k)
          ((SoftRing.ginsert x g).ring.head - (SoftRing.ginsert x g).ring.tail)
          (SoftRing.ginsert x g).ring).1
        = (CycleBuffer.toList (2 ^ g.k) g.ring ++ [x]).map some := by
  have hc1 : 1 ≤ 2 ^ g.k := Nat.one_le_two_pow
  have hfail : CycleBuffer.insert (2 ^ g.k) x g.ring = (false, g.ring) := by
    unfold CycleBuffer.insert
    rw [if_pos hfull]
  have hlen : (CycleBuffer.toList (2 ^ g.k) g.ring).length = 2 ^ g.k := by
    simp [CycleBuffer.toList, hfull]
  have hgrow : 2 ^ g.k < 2 ^ SoftRing.growExp (2 ^ g.k) := by
    have h15 : 2 ^ g.k + 1 ≤ SoftRing.ceil15 (2 ^ g.k) := by
      unfold SoftRing.ceil15
      omega
    have hge := pow2ceil_ge (SoftRing.ceil15 (2 ^ g.k))
    unfold pow2ceil at hge
    unfold SoftRing.growExp
    omega
  have hG : SoftRing.ginsert x g
      = ⟨SoftRing.growExp (2 ^ g.k),
         ⟨(CycleBuffer.toList (2 ^ g.k) g.ring).length + 1, 0,
          upd (fun i => (CycleBuffer.toList (2 ^ g.k) g.ring).getD i default)
            (slot (2 ^ SoftRing.growExp (2 ^ g.k))
              (CycleBuffer.toList (2 ^ g.k) g.ring).length) x⟩⟩ := by
    have hins2 := CycleBuffer.insert_eq (SoftRing.growExp (2 ^ g.k)) x
      (⟨(CycleBuffer.toList (2 ^ g.k) g.ring).length, 0,
        fun i => (CycleBuffer.toList (2 ^ g.k) g.ring).getD i default⟩ : CycleBuffer.State α)
      (by dsimp only; omega)
    simp only [SoftRing.ginsert, hfail]
    rw [hins2]
    rfl
  have hslot : slot (2 ^ SoftRing.growExp (2 ^ g.k))
      (CycleBuffer.toList (2 ^ g.k) g.ring).length
      = (CycleBuffer.toList (2 ^ g.k) g.ring).length := by
    rw [slot_eq_mod]
    exact Nat.mod_eq_of_lt (by omega)
  refine ⟨by rw [hG], by rw [hG]; rfl, ?_, by rw [hG], ?_, ?_, ?_⟩
  · rw [hG]
    exact hgrow
  · rw [hG]
    dsimp only
    omega
  · intro i hi
    rw [hG]
    dsimp only
    rw [upd_other _ _ _ _ (by omega : i ≠ slot (2 ^ SoftRing.growExp (2 ^ g.k))
      (CycleBuffer.toList (2 ^ g.k) g.ring).length)]
  · rw [hG]
    dsimp only
    rw [CycleBuffer.removeAll_spec (SoftRing.growExp (2 ^ g.k))
      ((CycleBuffer.toList (2 ^ g.k) g.ring).length + 1 - 0) _ (by dsimp only; omega)]
    have hstep : CycleBuffer.toList (2 ^ SoftRing.growExp (2 ^ g.k))
        (⟨(CycleBuffer.toList (2 ^ g.k) g.ring).length + 1, 0,
          upd (fun i => (CycleBuffer.toList (2 ^ g.k) g.ring).getD i default)
            (slot (2 ^ SoftRing.growExp (2 ^ g.k))
              (CycleBuffer.toList (2 ^ g.k) g.ring).length) x⟩ : CycleBuffer.State α)
        = CycleBuffer.toList (2 ^ SoftRing.growExp (2 ^ g.k))
            (⟨(CycleBuffer.toList (2 ^ g.k) g.ring).length, 0,
              fun i => (CycleBuffer.toList (2 ^ g.k) g.ring).getD i default⟩
              : CycleBuffer.State α)
          ++ [x] :=
      CycleBuffer.toList_insert (SoftRing.growExp (2 ^ g.k)) x
        (⟨(CycleBuffer.toList (2 ^ g.k) g.ring).length, 0,
          fun i => (CycleBuffer.toList (2 ^ g.k) g.ring).getD i default⟩
          : CycleBuffer.State α)
        (by dsimp only; omega) (by dsimp only; omega)
    rw [hstep]
    rw [toList_copied (SoftRing.growExp (2 ^ g.k)) (CycleBuffer.toList (2 ^ g.k) g.ring)
      (by omega)]
end CppslBuffer

namespace CppslBuffer

/-- C7 counterexample: with buffer_size 8, count 5, chunk_size 2 (availability never
exhausted: all 5 items are written), the code publishes/fires the callback after chunks
of sizes 2 and then 3 — not after every successive group of 2 items (which would be
2, 2, 1 as `everyChunkSizeGroups` describes): `count_to_callback` only limits the first
chunk. -/
theorem c7_chunks_not_every_chunk_size :
    (CycleBuffer.writeBuffCb 8 (CycleBuffer.init (0 : Nat)) [1, 2, 3, 4, 5] 5 2).2.1 = 5
    ∧ (CycleBuffer.writeBuffCb 8 (CycleBuffer.init (0 : Nat)) [1, 2, 3, 4, 5] 5 2).2.2
        = [2, 3]
    ∧ everyChunkSizeGroups 5 2 = [2, 2, 1]
    ∧ (CycleBuffer.writeBuffCb 8 (CycleBuffer.init (0 : Nat)) [1, 2, 3, 4, 5] 5 2).2.2
        ≠ everyChunkSizeGroups 5 2 := by
  decide

/-- Witness for C7 at a concrete input: buffer_size 8, count 5, chunk_size 2 writes all
5 items in chunks 2 and 3. -/
theorem c7_writeBuffCb_witness :
    (CycleBuffer.writeBuffCb (2 ^ 3) (CycleBuffer.init (0 : Nat)) [1, 2, 3, 4, 5] 5 2).2.1
        = 5
    ∧ (CycleBuffer.writeBuffCb (2 ^ 3) (CycleBuffer.init (0 : Nat)) [1, 2, 3, 4, 5] 5 2).2.2
        = [2, 3] := by
  have h := c7_writeBuffCb_chunks (α := Nat) 3 (CycleBuffer.init 0) [1, 2, 3, 4, 5] 5 2
    (by decide) (by decide) (by decide) (by decide)
  exact ⟨h.1, h.2.1⟩

/-- Witness for C4 at a concrete input: a full capacity-2 growable ring holding 5, 6
grows on inserting 7; the retried insert lands (head 3 over tail 0) and draining returns
5, 6, 7. -/
theorem c4_growth_witness :
    (SoftRing.ginsert 7 (⟨1, ⟨2, 0, fun i => [5, 6].getD i 0⟩⟩ : SoftRing.GState Nat)).ring.head
        = 2 ^ 1 + 1
    ∧ (CycleBuffer.removeAll
          (2 ^ (SoftRing.ginsert 7
            (⟨1, ⟨2, 0, fun i => [5, 6].getD i 0⟩⟩ : SoftRing.GState Nat)).k)
          ((SoftRing.ginsert 7
            (⟨1, ⟨2, 0, fun i => [5, 6].getD i 0⟩⟩ : SoftRing.GState Nat)).ring.head
            - (SoftRing.ginsert 7
                (⟨1, ⟨2, 0, fun i => [5, 6].getD i 0⟩⟩ : SoftRing.GState Nat)).ring.tail)
          (SoftRing.ginsert 7
            (⟨1, ⟨2, 0, fun i => [5, 6].getD i 0⟩⟩ : SoftRing.GState Nat)).ring).1
        = (CycleBuffer.toList (2 ^ 1)
            (⟨2, 0, fun i => [5, 6].getD i 0⟩ : CycleBuffer.State Nat) ++ [7]).map some := by
  have h := c4_growth_preserves_data (α := Nat) 7 ⟨1, ⟨2, 0, fun i => [5, 6].getD i 0⟩⟩
    (by decide) (by decide)
  exact ⟨h.2.2.2.2.1, h.2.2.2.2.2.2⟩

end CppslBuffer
